import Mathlib

/-!
Shallow embedding of the sherpa-ncnn streaming decoder
(`sherpa-ncnn/csrc/modified-beam-search-decoder.h`, the microphone CLI
`main`, and the iOS `ViewController.swift` call sites).

The repository snapshot contains only the decoder class *declaration*,
the CLI driver and the iOS driver; the bodies of
`ModifiedBeamSearchDecoder::{AcceptWaveform, Decode, GetResult,
ResetResult, IsEndpoint, Reset}`, of the `FeatureExtractor` and of the
`Hypothesis`/beam module are absent.  Those parts are modelled from the
specification text (each such definition carries a doc comment starting
with `Modelled from the spec:`).  Durations and log-probabilities are
modelled over `ℚ`; the numerically opaque pieces (fbank feature math,
encoder state blobs, joiner log-probabilities, the log-sum-exp
combiner) are abstracted as explicit function parameters so that every
definition stays executable.
-/

namespace SherpaNcnn

/-- Modelled from the spec: one endpointing rule is a threshold tuple
`(min_trailing_silence, min_utterance_length)` (spec section 3,
"EndpointConfig / Rule1..3"); thresholds are durations in seconds. -/
structure EndpointRule where
  minTrailingSilence : ℚ
  minUtteranceLength : ℚ
deriving Repr, DecidableEq

/-- Modelled from the spec: the endpoint configuration bundles the three
rules; immutable after Recognizer construction. -/
structure EndpointConfig where
  rule1 : EndpointRule
  rule2 : EndpointRule
  rule3 : EndpointRule
deriving Repr, DecidableEq

/-- Modelled from the spec: the body of `Endpoint`/`IsEndpoint` is not in
the snapshot; spec section 4.4 defines the detector as a pure function of
the two streaming counters (converted to durations): the endpoint fires
iff Rule 1 (`trailing_silence ≥ rule1.min_trailing_silence`), Rule 2
(`trailing_silence ≥ rule2.min_trailing_silence` and
`utterance_length ≥` the rule's minimum utterance length), or Rule 3
(`utterance_length ≥ rule3.min_utterance_length`) holds. -/
def detectEndpoint (c : EndpointConfig) (trailingSilence utteranceLength : ℚ) : Bool :=
  decide (c.rule1.minTrailingSilence ≤ trailingSilence) ||
    (decide (c.rule2.minTrailingSilence ≤ trailingSilence) &&
      decide (c.rule2.minUtteranceLength ≤ utteranceLength)) ||
    decide (c.rule3.minUtteranceLength ≤ utteranceLength)

/-- Modelled from the spec: a `Hypothesis` is an ordered token-id
sequence `ys` with a cumulative log-probability `log_prob`
(spec section 3); identity for deduplication is the token sequence. -/
structure Hypothesis where
  ys : List ℕ
  logProb : ℚ
deriving Repr, DecidableEq

/-- Modelled from the spec: the beam ordering used by `TopK` — higher
score first, ties broken by shorter token sequence (spec section 4.2);
`strictBetter a b` means `a` must come before `b` regardless of
insertion order. -/
def strictBetter (a b : Hypothesis) : Bool :=
  decide (b.logProb < a.logProb) ||
    (decide (a.logProb = b.logProb) && decide (a.ys.length < b.ys.length))

/-- Modelled from the spec: pick the better of two hypotheses, keeping
the first argument on ties (so a left fold keeps the earliest of equally
ranked hypotheses, matching the "then insertion order" tie-break). -/
def pick (a b : Hypothesis) : Hypothesis :=
  if strictBetter b a then b else a

/-- Modelled from the spec: stable insertion of a hypothesis arriving
*after* every element of the already sorted list: it is placed behind
every element that is strictly better or equally ranked. -/
def insertHyp (x : Hypothesis) : List Hypothesis → List Hypothesis
  | [] => [x]
  | y :: t => if strictBetter x y then x :: y :: t else y :: insertHyp x t

/-- Modelled from the spec: stable sort of the candidate pool by score
(higher first, ties by shorter sequence then insertion order),
realising the ordering contract of `TopK` in spec section 4.2. -/
def sortHyps (l : List Hypothesis) : List Hypothesis :=
  l.foldl (fun acc x => insertHyp x acc) []

/-- Modelled from the spec: `TopK(n)` keeps the `n` best hypotheses in
the stable score order (spec section 4.2). -/
def topK (n : ℕ) (l : List Hypothesis) : List Hypothesis :=
  (sortHyps l).take n

/-- Modelled from the spec: `Add(hypothesis)` merges-or-inserts by
token-sequence key, combining the scores on collision (spec
section 4.2); the log-sum-exp combiner is passed in as `comb` since the
floating-point transcendental lives outside the snapshot. -/
def addHyp (comb : ℚ → ℚ → ℚ) (acc : List Hypothesis) (h : Hypothesis) : List Hypothesis :=
  if acc.any (fun e => decide (e.ys = h.ys)) then
    acc.map (fun e => if e.ys = h.ys then ⟨e.ys, comb e.logProb h.logProb⟩ else e)
  else
    acc ++ [h]

/-- Modelled from the spec: pool all candidates and merge duplicate
token sequences via the score combiner (spec section 4.3, "collect all
candidates from all hypotheses into a pooled set, merge duplicate token
sequences (log-sum-exp)"). -/
def mergeCands (comb : ℚ → ℚ → ℚ) (cands : List Hypothesis) : List Hypothesis :=
  cands.foldl (addHyp comb) []

/-- Combine a nonempty score list with the score combiner, in candidate
order; `none` when there is no candidate with the key at all. -/
def combineScores (comb : ℚ → ℚ → ℚ) : List ℚ → Option ℚ
  | [] => none
  | x :: xs => some (xs.foldl comb x)

/-- The scores of all pooled candidates carrying a given token-sequence
key, in pool order. -/
def candScores (key : List ℕ) (cands : List Hypothesis) : List ℚ :=
  (cands.filter (fun c => decide (c.ys = key))).map Hypothesis.logProb

/-- Modelled from the spec: the fixed decode-time parameters of a
`ModifiedBeamSearchDecoder` instance.  `segment`/`offset` are the chunk
size and advance the streaming encoder requires (spec section 6),
`encOutPerSegment` the number of encoder output frames per consumed
segment, `comb` the (numerically stable) log-sum-exp combiner, `lp` the
joiner's log-probability for a token given the encoder-output frame
index and a hypothesis's token context, and `encUpd` the opaque encoder
state update — the neural network is an external capability, so these
three are abstract function parameters. -/
structure DecodeParams where
  numActivePaths : ℕ
  blankId : ℕ
  vocabSize : ℕ
  segment : ℕ
  offset : ℕ
  encOutPerSegment : ℕ
  comb : ℚ → ℚ → ℚ
  lp : ℕ → List ℕ → ℕ → ℚ
  encUpd : List ℚ → List (List ℚ) → List ℚ

/-- Modelled from the spec: the non-blank expansion candidates of one
hypothesis at one encoder output frame — one candidate per non-blank
token, with score = hypothesis score + log-prob(token) and the token
appended (spec section 4.3). -/
def nonblankCands (p : DecodeParams) (fi : ℕ) (h : Hypothesis) : List Hypothesis :=
  ((List.range p.vocabSize).filter (fun t => decide (t ≠ p.blankId))).map
    (fun t => ⟨h.ys ++ [t], h.logProb + p.lp fi h.ys t⟩)

/-- Modelled from the spec: all expansion candidates of one hypothesis:
the "stay" candidate consuming the blank token (token sequence and
score unchanged) followed by one candidate per non-blank token
(spec section 4.3). -/
def candidatesOf (p : DecodeParams) (fi : ℕ) (h : Hypothesis) : List Hypothesis :=
  ⟨h.ys, h.logProb⟩ :: nonblankCands p fi h

/-- Modelled from the spec: one beam-search expansion step (spec
section 4.3): pool the candidates of every hypothesis in the beam,
merge duplicate token sequences, and keep only the top
`num_active_paths` by score as the new beam. -/
def expandStep (p : DecodeParams) (fi : ℕ) (beam : List Hypothesis) : List Hypothesis :=
  topK p.numActivePaths (mergeCands p.comb (beam.flatMap (candidatesOf p fi)))

/-- Modelled from the spec: the `k` successive expansion steps performed
for the encoder output frames of one consumed segment. -/
def expandMany (p : DecodeParams) (base k : ℕ) (beam : List Hypothesis) : List Hypothesis :=
  (List.range k).foldl (fun b j => expandStep p (base + j) b) beam

/-- Follows the spec's words for greedy search: at each expansion step
keep only the single highest-scoring candidate (spec section 8,
"always choosing only the single highest-scoring candidate at each
step"); ties resolved exactly as `TopK` resolves them. -/
def greedyStep (p : DecodeParams) (fi : ℕ) (h : Hypothesis) : Hypothesis :=
  (nonblankCands p fi h).foldl pick ⟨h.ys, h.logProb⟩

/-- Follows the spec's words for greedy search: the `k` successive
greedy steps for the encoder output frames of one consumed segment. -/
def greedyMany (p : DecodeParams) (base k : ℕ) (h : Hypothesis) : Hypothesis :=
  (List.range k).foldl (fun hh j => greedyStep p (base + j) hh) h

/-! ## FeatureExtractor -/

/-- Modelled from the spec: the frame-emission loop of the
`FeatureExtractor` (spec section 4.1): while at least `frameLength`
buffered samples exist, emit the feature of the first `frameLength`
samples and advance the buffer by `frameShift`; leftover samples remain
buffered.  `fuel` bounds the number of emitted frames; any
`fuel ≥ buf.length` gives the same result (proved below). -/
def emitAux (flen fshift : ℕ) (ff : List ℚ → List ℚ) :
    ℕ → List ℚ → List (List ℚ) × List ℚ
  | 0, b => ([], b)
  | fuel + 1, b =>
    if flen ≤ b.length then
      let r := emitAux flen fshift ff fuel (b.drop fshift)
      (ff (b.take flen) :: r.1, r.2)
    else
      ([], b)

/-- Modelled from the spec: emit every frame computable from the buffer. -/
def emitAll (flen fshift : ℕ) (ff : List ℚ → List ℚ) (b : List ℚ) :
    List (List ℚ) × List ℚ :=
  emitAux flen fshift ff b.length b

/-- Modelled from the spec: the `FeatureExtractor` state — fixed frame
length/shift (in samples), the abstract feature computation `featFn`
(the fbank math is outside the snapshot), the buffered leftover raw
samples, and the FIFO queue of feature frames produced so far
(spec sections 2 and 4.1). -/
structure FeatureExtractor where
  frameLength : ℕ
  frameShift : ℕ
  featFn : List ℚ → List ℚ
  buf : List ℚ
  frames : List (List ℚ)

/-- Modelled from the spec: `FeatureExtractor.AcceptWaveform` appends
the raw samples to the buffer and converts buffered samples into
feature frames, emitting a frame only when enough raw samples exist;
leftover samples remain buffered for the next call (spec section 4.1). -/
def FeatureExtractor.acceptWaveform (fe : FeatureExtractor) (samples : List ℚ) :
    FeatureExtractor :=
  let r := emitAll fe.frameLength fe.frameShift fe.featFn (fe.buf ++ samples)
  { fe with buf := r.2, frames := fe.frames ++ r.1 }

/-- A freshly constructed `FeatureExtractor`: empty buffer, no frames. -/
def FeatureExtractor.init (flen fshift : ℕ) (ff : List ℚ → List ℚ) : FeatureExtractor :=
  ⟨flen, fshift, ff, [], []⟩

/-! ## Decoder state machine -/

/-- The mutable state of a `ModifiedBeamSearchDecoder`, mirroring the
fields of the class declaration in
`sherpa-ncnn/csrc/modified-beam-search-decoder.h` (`feature_extractor_`,
the beam behind `result_`, `encoder_state_`, `num_processed_`,
`endpoint_start_frame_`); `framesSinceLastNonblank` is the
trailing-silence counter the spec's `IsEndpoint` consumes
(spec section 4.4). -/
structure DecoderState where
  fe : FeatureExtractor
  beam : List Hypothesis
  encoderState : List ℚ
  numProcessed : ℕ
  endpointStartFrame : ℕ
  framesSinceLastNonblank : ℕ

/-- Modelled from the spec: `ResetResult()` clears the beam to a single
empty hypothesis (score 0, empty token sequence), clears the
accumulated encoder state and resets the frame counters
(spec section 4.3); the feature extractor itself is untouched. -/
def resetResult (s : DecoderState) : DecoderState :=
  { s with
    beam := [⟨[], 0⟩]
    encoderState := []
    numProcessed := 0
    endpointStartFrame := 0
    framesSinceLastNonblank := 0 }

/-- Modelled from the spec: `Reset()` performs the same clearing as
`ResetResult()` (spec section 4.3 treats them together). -/
def reset (s : DecoderState) : DecoderState :=
  resetResult s

/-- The `ModifiedBeamSearchDecoder` constructor (source lines 33–49):
builds a fresh feature extractor from the fbank options, initialises
`num_processed_` and `endpoint_start_frame_` to 0 and calls
`ResetResult()`. -/
def initState (flen fshift : ℕ) (ff : List ℚ → List ℚ) : DecoderState :=
  resetResult
    { fe := FeatureExtractor.init flen fshift ff
      beam := []
      encoderState := []
      numProcessed := 0
      endpointStartFrame := 0
      framesSinceLastNonblank := 0 }

/-- Modelled from the spec: `AcceptWaveform` forwards the samples to the
`FeatureExtractor`; purely buffering, no decode work (spec
section 4.3). -/
def DecoderState.acceptWaveform (s : DecoderState) (samples : List ℚ) : DecoderState :=
  { s with fe := s.fe.acceptWaveform samples }

/-- Modelled from the spec: the best hypothesis of a beam — highest
score, ties broken by shorter token sequence then insertion order
(spec section 4.3, `GetResult`); an empty beam yields the empty
hypothesis defensively. -/
def bestHyp : List Hypothesis → Hypothesis
  | [] => ⟨[], 0⟩
  | h :: t => t.foldl pick h

/-- Modelled from the spec: `RecognitionResult` is a
`(text, tokens, is_final)` snapshot of the current best hypothesis
(spec section 3). -/
structure RecognitionResult where
  text : String
  tokens : List ℕ
  isFinal : Bool
deriving Repr, DecidableEq

/-- Modelled from the spec: `GetResult` builds a `RecognitionResult`
from the single best hypothesis in the beam, converting token ids to
text via the injected symbol table (spec section 4.3). -/
def getResult (sym : ℕ → String) (s : DecoderState) : RecognitionResult :=
  let h := bestHyp s.beam
  ⟨String.join (h.ys.map sym), h.ys, false⟩

/-- Modelled from the spec: the decoder's `IsEndpoint` delegates to the
endpoint detector, converting the two frame counters into durations via
the frame shift in seconds (spec sections 4.3 and 4.4); disabled
endpointing never fires. -/
def isEndpointState (cfg : EndpointConfig) (enable : Bool) (frameShiftSecs : ℚ)
    (s : DecoderState) : Bool :=
  enable &&
    detectEndpoint cfg ((s.framesSinceLastNonblank : ℚ) * frameShiftSecs)
      (((s.numProcessed - s.endpointStartFrame : ℕ) : ℚ) * frameShiftSecs)

/-- Modelled from the spec: one iteration of `Decode()` (spec
section 4.3): run the encoder over the next `segment` feature frames
updating the encoder state, perform one beam-search expansion step per
resulting encoder output frame, advance the consumed-frame counter by
`offset`, and maintain the trailing-silence counter (reset when the
best hypothesis emitted a token, advanced otherwise). -/
def decodeOnce (p : DecodeParams) (s : DecoderState) : DecoderState :=
  let segFrames := (s.fe.frames.drop s.numProcessed).take p.segment
  let beam' := expandMany p s.numProcessed p.encOutPerSegment s.beam
  { s with
    beam := beam'
    encoderState := p.encUpd s.encoderState segFrames
    numProcessed := s.numProcessed + p.offset
    framesSinceLastNonblank :=
      if (bestHyp beam').ys.length = (bestHyp s.beam).ys.length then
        s.framesSinceLastNonblank + p.encOutPerSegment
      else 0 }

/-- Modelled from the spec: the `Decode()` loop — while the feature
extractor has at least `segment` unconsumed frames ready, consume one
segment (spec section 4.3); `fuel` bounds the iteration count. -/
def decodeLoop (p : DecodeParams) : ℕ → DecoderState → DecoderState
  | 0, s => s
  | fuel + 1, s =>
    if s.numProcessed + p.segment ≤ s.fe.frames.length then
      decodeLoop p fuel (decodeOnce p s)
    else s

/-- Modelled from the spec: a full `Decode()` call. -/
def decode (p : DecodeParams) (s : DecoderState) : DecoderState :=
  decodeLoop p (s.fe.frames.length + 1) s

/-- Follows the spec's words for greedy search: one decode iteration
that keeps only the single highest-scoring candidate at each expansion
step; identical to `decodeOnce` in everything but the beam update. -/
def greedyDecodeOnce (p : DecodeParams) (s : DecoderState) : DecoderState :=
  let segFrames := (s.fe.frames.drop s.numProcessed).take p.segment
  let h := bestHyp s.beam
  let h' := greedyMany p s.numProcessed p.encOutPerSegment h
  { s with
    beam := [h']
    encoderState := p.encUpd s.encoderState segFrames
    numProcessed := s.numProcessed + p.offset
    framesSinceLastNonblank :=
      if h'.ys.length = h.ys.length then
        s.framesSinceLastNonblank + p.encOutPerSegment
      else 0 }

/-- Follows the spec's words for greedy search: the greedy decode loop. -/
def greedyDecodeLoop (p : DecodeParams) : ℕ → DecoderState → DecoderState
  | 0, s => s
  | fuel + 1, s =>
    if s.numProcessed + p.segment ≤ s.fe.frames.length then
      greedyDecodeLoop p fuel (greedyDecodeOnce p s)
    else s

/-- Follows the spec's words for greedy search: a full greedy decode
call. -/
def greedyDecode (p : DecodeParams) (s : DecoderState) : DecoderState :=
  greedyDecodeLoop p (s.fe.frames.length + 1) s

/-- The two mutating API calls a caller interleaves on one decoder
(spec section 4.3). -/
inductive ApiCall where
  | accept (samples : List ℚ)
  | decodeCall
deriving Repr

/-- Run one API call with modified beam search. -/
def runCall (p : DecodeParams) (s : DecoderState) : ApiCall → DecoderState
  | .accept samples => s.acceptWaveform samples
  | .decodeCall => decode p s

/-- Run a sequence of API calls with modified beam search. -/
def runCalls (p : DecodeParams) (calls : List ApiCall) (s : DecoderState) : DecoderState :=
  calls.foldl (runCall p) s

/-- Run one API call with greedy search. -/
def runCallGreedy (p : DecodeParams) (s : DecoderState) : ApiCall → DecoderState
  | .accept samples => s.acceptWaveform samples
  | .decodeCall => greedyDecode p s

/-- Run a sequence of API calls with greedy search. -/
def runCallsGreedy (p : DecodeParams) (calls : List ApiCall) (s : DecoderState) :
    DecoderState :=
  calls.foldl (runCallGreedy p) s

/-! ## CLI and iOS call sites (directly from the source) -/

/-- The CLI `main`'s decode-method selection (source lines 182–188):
`decoder_conf.method` is overwritten with `argv[9]` when
`method.compare("greedy_search") || method.compare("modified_beam_search")`
is truthy.  `std::string::compare` returns 0 exactly on equality, so
the C++ condition is the disjunction of the two *inequalities*. -/
def cliChooseMethod (current arg : String) : String :=
  if arg ≠ "greedy_search" ∨ arg ≠ "modified_beam_search" then arg else current

/-- The CLI `main`'s endpoint configuration (source lines 192–196):
`rule1.min_trailing_silence = 2.4`, `rule2.min_trailing_silence = 1.2`,
`rule3.min_utterance_length = 300`, every other field left at its
default `d`. -/
def cliEndpointConfig (d : EndpointConfig) : EndpointConfig :=
  { d with
    rule1 := { d.rule1 with minTrailingSilence := 12 / 5 }
    rule2 := { d.rule2 with minTrailingSilence := 6 / 5 }
    rule3 := { d.rule3 with minUtteranceLength := 300 } }

/-- The argument record of the Swift `sherpaNcnnDecoderConfig` call in
`ViewController.swift`. -/
structure SwiftDecoderConfig where
  decodingMethod : String
  numActivePaths : ℕ
  enableEndpoint : Bool
  rule1MinTrailingSilence : ℚ
  rule2MinTrailingSilence : ℚ
  rule3MinUtteranceLength : ℚ
deriving Repr, DecidableEq

/-- The iOS `initRecognizer` decoder configuration
(`ViewController.swift` lines 94–100). -/
def iosDecoderConfig : SwiftDecoderConfig :=
  ⟨"modified_beam_search", 4, true, 6 / 5, 12 / 5, 200⟩

/-! ## Claim C1: endpoint fires iff one of the three rules holds -/

/-- C1: for every counter state the endpoint detector returns `true`
iff Rule 1, Rule 2 or Rule 3 holds; trailing silence exactly equal to
`rule1.min_trailing_silence` fires, and one frame shift below it does
not (when, as the claim intends, the other two rules do not hold
there). -/
theorem c1_endpoint_rule_iff (c : EndpointConfig) (ts ul ul' fs : ℚ)
    (hfs : 0 < fs)
    (h2 : ¬(c.rule2.minTrailingSilence ≤ c.rule1.minTrailingSilence - fs ∧
             c.rule2.minUtteranceLength ≤ ul'))
    (h3 : ¬ c.rule3.minUtteranceLength ≤ ul') :
    (detectEndpoint c ts ul = true ↔
       (c.rule1.minTrailingSilence ≤ ts ∨
         (c.rule2.minTrailingSilence ≤ ts ∧ c.rule2.minUtteranceLength ≤ ul) ∨
         c.rule3.minUtteranceLength ≤ ul)) ∧
    detectEndpoint c c.rule1.minTrailingSilence ul' = true ∧
    detectEndpoint c (c.rule1.minTrailingSilence - fs) ul' = false := by
  refine ⟨by simp [detectEndpoint, or_assoc], ?_, ?_⟩
  · simp [detectEndpoint]
  · have h1 : ¬ c.rule1.minTrailingSilence ≤ c.rule1.minTrailingSilence - fs := by
      intro h; linarith
    simp only [detectEndpoint, Bool.or_eq_false_iff, Bool.and_eq_false_iff,
      decide_eq_false_iff_not]
    refine ⟨⟨h1, ?_⟩, h3⟩
    by_cases hr2 : c.rule2.minTrailingSilence ≤ c.rule1.minTrailingSilence - fs
    · exact Or.inr fun hu => h2 ⟨hr2, hu⟩
    · exact Or.inl hr2

/-- A sample endpoint configuration used by the witnesses. -/
def sampleEndpointConfig : EndpointConfig :=
  ⟨⟨12 / 5, 0⟩, ⟨6 / 5, 10⟩, ⟨0, 300⟩⟩

/-- Witness for C1 at a concrete configuration and counter state. -/
theorem c1_endpoint_rule_iff_witness :
    (detectEndpoint sampleEndpointConfig 1 2 = true ↔
       (sampleEndpointConfig.rule1.minTrailingSilence ≤ 1 ∨
         (sampleEndpointConfig.rule2.minTrailingSilence ≤ 1 ∧
           sampleEndpointConfig.rule2.minUtteranceLength ≤ 2) ∨
         sampleEndpointConfig.rule3.minUtteranceLength ≤ 2)) ∧
    detectEndpoint sampleEndpointConfig
      sampleEndpointConfig.rule1.minTrailingSilence 5 = true ∧
    detectEndpoint sampleEndpointConfig
      (sampleEndpointConfig.rule1.minTrailingSilence - 1 / 10) 5 = false :=
  c1_endpoint_rule_iff sampleEndpointConfig 1 2 5 (1 / 10) (by norm_num)
    (by simp [sampleEndpointConfig]; norm_num) (by simp [sampleEndpointConfig]; norm_num)

/-! ## Claim C6: Reset yields the empty result and no endpoint -/

/-- C6: for every decoder state, after `Reset` the result text is empty
(and its token list empty), `IsEndpoint` is `false` (for positive rule
thresholds, as configured), the beam holds exactly the empty hypothesis
with score 0, the encoder state is cleared, and the frame counters are
zero. -/
theorem c6_reset_empty_result (cfg : EndpointConfig) (enable : Bool) (fsSecs : ℚ)
    (sym : ℕ → String) (s : DecoderState)
    (h1 : 0 < cfg.rule1.minTrailingSilence)
    (h2 : 0 < cfg.rule2.minTrailingSilence)
    (h3 : 0 < cfg.rule3.minUtteranceLength) :
    (getResult sym (reset s)).text = "" ∧
    (getResult sym (reset s)).tokens = [] ∧
    isEndpointState cfg enable fsSecs (reset s) = false ∧
    (reset s).beam = [⟨[], 0⟩] ∧
    (reset s).encoderState = [] ∧
    (reset s).numProcessed = 0 ∧
    (reset s).endpointStartFrame = 0 ∧
    (reset s).framesSinceLastNonblank = 0 := by
  refine ⟨rfl, rfl, ?_, rfl, rfl, rfl, rfl, rfl⟩
  simp [isEndpointState, reset, resetResult, detectEndpoint, getResult, bestHyp,
    h1.not_le, h2.not_le, h3.not_le]

/-- Witness for C6 at a concrete configuration and state. -/
theorem c6_reset_empty_result_witness :
    (getResult (fun _ => "tok") (reset (initState 25 10 (fun w => w)))).text = "" ∧
    (getResult (fun _ => "tok") (reset (initState 25 10 (fun w => w)))).tokens = [] ∧
    isEndpointState sampleEndpointConfig true (1 / 100)
      (reset (initState 25 10 (fun w => w))) = false ∧
    (reset (initState 25 10 (fun w => w))).beam = [⟨[], 0⟩] ∧
    (reset (initState 25 10 (fun w => w))).encoderState = [] ∧
    (reset (initState 25 10 (fun w => w))).numProcessed = 0 ∧
    (reset (initState 25 10 (fun w => w))).endpointStartFrame = 0 ∧
    (reset (initState 25 10 (fun w => w))).framesSinceLastNonblank = 0 :=
  c6_reset_empty_result sampleEndpointConfig true (1 / 100) (fun _ => "tok")
    (initState 25 10 (fun w => w))
    (by norm_num [sampleEndpointConfig])
    (by norm_num [sampleEndpointConfig])
    (by norm_num [sampleEndpointConfig])

/-! ## Claim C7: decode-method validation in the CLI -/

/-- C7 (code bug): the CLI condition
`method.compare("greedy_search") || method.compare("modified_beam_search")`
is truthy for *every* string (no string equals both literals), so
`decoder_conf.method` is overwritten with the caller's string even when
it is not one of the two recognized values — the claimed validation
never rejects anything. -/
theorem c7_method_always_overwritten :
    (∀ current arg : String, cliChooseMethod current arg = arg) ∧
    cliChooseMethod "greedy_search" "no_such_method" = "no_such_method" := by
  have h : ∀ current arg : String, cliChooseMethod current arg = arg := by
    intro current arg
    unfold cliChooseMethod
    rw [if_pos]
    by_cases hg : arg = "greedy_search"
    · refine Or.inr ?_
      rw [hg]
      decide
    · exact Or.inl hg
  exact ⟨h, h _ _⟩

/-! ## Claim C8: AcceptWaveform only touches the feature extractor -/

/-- C8: a decoder-level `AcceptWaveform` call changes only the feature
extractor (to which it forwards the samples); the beam, the encoder
state and all frame counters are unchanged. -/
theorem c8_accept_waveform_only_buffers (s : DecoderState) (samples : List ℚ) :
    (s.acceptWaveform samples).beam = s.beam ∧
    (s.acceptWaveform samples).encoderState = s.encoderState ∧
    (s.acceptWaveform samples).numProcessed = s.numProcessed ∧
    (s.acceptWaveform samples).endpointStartFrame = s.endpointStartFrame ∧
    (s.acceptWaveform samples).framesSinceLastNonblank = s.framesSinceLastNonblank ∧
    (s.acceptWaveform samples).fe = s.fe.acceptWaveform samples :=
  ⟨rfl, rfl, rfl, rfl, rfl, rfl⟩

/-! ## Claim C9: rule1 vs rule2 thresholds in the shipped examples -/

/-- C9 counterexample: in the iOS `initRecognizer` configuration,
`rule1MinTrailingSilence` (1.2 s) is *not* strictly greater than
`rule2MinTrailingSilence` (2.4 s), refuting the claim for "every
example endpoint configuration shipped in the source". -/
theorem c9_counterexample_ios_rule_order :
    ¬ (iosDecoderConfig.rule2MinTrailingSilence <
        iosDecoderConfig.rule1MinTrailingSilence) := by
  simp [iosDecoderConfig]
  norm_num

/-- C9 (amended): in the CLI `main`'s endpoint configuration,
`rule1.min_trailing_silence` (2.4 s) is strictly greater than
`rule2.min_trailing_silence` (1.2 s); in the iOS `initRecognizer`
configuration the relation is reversed
(`rule1MinTrailingSilence` 1.2 s < `rule2MinTrailingSilence` 2.4 s). -/
theorem c9_rule_order_amended :
    (∀ d : EndpointConfig,
       (cliEndpointConfig d).rule2.minTrailingSilence <
         (cliEndpointConfig d).rule1.minTrailingSilence) ∧
    iosDecoderConfig.rule1MinTrailingSilence <
      iosDecoderConfig.rule2MinTrailingSilence := by
  constructor
  · intro d
    simp [cliEndpointConfig]
    norm_num
  · simp [iosDecoderConfig]
    norm_num

/-! ## Claim C10: the constructor starts in the reset state -/

/-- C10: a freshly constructed decoder is in the reset state: the
counters are zero, the beam is the single empty hypothesis, resetting
the fresh state is a no-op, and `GetResult` before any audio equals
`GetResult` after an explicit `Reset` of any state. -/
theorem c10_constructor_starts_reset (flen fshift : ℕ) (ff : List ℚ → List ℚ) :
    initState flen fshift ff = reset (initState flen fshift ff) ∧
    (initState flen fshift ff).beam = [⟨[], 0⟩] ∧
    (initState flen fshift ff).numProcessed = 0 ∧
    (initState flen fshift ff).endpointStartFrame = 0 ∧
    (∀ (sym : ℕ → String) (s : DecoderState),
       getResult sym (initState flen fshift ff) = getResult sym (reset s)) :=
  ⟨rfl, rfl, rfl, rfl, fun _ _ => rfl⟩

/-! ## Claim C2: the beam never exceeds `num_active_paths` -/

lemma topK_length_le (n : ℕ) (l : List Hypothesis) : (topK n l).length ≤ n := by
  simp [topK]

lemma expandStep_length_le (p : DecodeParams) (fi : ℕ) (beam : List Hypothesis) :
    (expandStep p fi beam).length ≤ p.numActivePaths :=
  topK_length_le _ _

lemma expandMany_length_le (p : DecodeParams) (base k : ℕ) (beam : List Hypothesis)
    (h : beam.length ≤ p.numActivePaths) :
    (expandMany p base k beam).length ≤ p.numActivePaths := by
  induction k with
  | zero => simpa [expandMany]
  | succ k ih =>
    rw [expandMany, List.range_succ, List.foldl_append]
    exact expandStep_length_le p (base + k) _

lemma decodeOnce_beam_le (p : DecodeParams) (s : DecoderState)
    (h : s.beam.length ≤ p.numActivePaths) :
    (decodeOnce p s).beam.length ≤ p.numActivePaths :=
  expandMany_length_le p _ _ _ h

lemma decodeLoop_beam_le (p : DecodeParams) (fuel : ℕ) (s : DecoderState)
    (h : s.beam.length ≤ p.numActivePaths) :
    (decodeLoop p fuel s).beam.length ≤ p.numActivePaths := by
  induction fuel generalizing s with
  | zero => simpa [decodeLoop]
  | succ fuel ih =>
    rw [decodeLoop]
    split
    · exact ih _ (decodeOnce_beam_le p s h)
    · exact h

lemma runCalls_beam_le (p : DecodeParams) (calls : List ApiCall) (s : DecoderState)
    (h : s.beam.length ≤ p.numActivePaths) :
    (runCalls p calls s).beam.length ≤ p.numActivePaths := by
  induction calls generalizing s with
  | nil => simpa [runCalls]
  | cons c cs ih =>
    rw [runCalls, List.foldl_cons]
    cases c with
    | accept samples => exact ih _ h
    | decodeCall => exact ih _ (decodeLoop_beam_le p _ _ h)

/-- C2: starting from a freshly constructed decoder, after every
sequence of `AcceptWaveform`/`Decode` calls (in particular after any
`Decode` call completes) the beam holds at most `num_active_paths`
hypotheses. -/
theorem c2_beam_size_bounded (p : DecodeParams) (flen fshift : ℕ)
    (ff : List ℚ → List ℚ) (calls : List ApiCall)
    (hn : 1 ≤ p.numActivePaths) :
    (runCalls p calls (initState flen fshift ff)).beam.length ≤ p.numActivePaths := by
  refine runCalls_beam_le p calls _ ?_
  simpa [initState, resetResult] using hn

/-- Concrete decode parameters used by the witnesses: beam width 2,
blank id 0, vocabulary of 3 tokens, segment 2 advancing by 1, one
encoder output frame per segment; score combination by `max` and a
joiner preferring token 1. -/
def sampleParams : DecodeParams :=
  ⟨2, 0, 3, 2, 1, 1, fun a b => max a b, fun _ _ t => if t = 1 then 0 else -1,
    fun st _ => st⟩

/-- A concrete call trace used by the witnesses. -/
def sampleCalls : List ApiCall :=
  [ApiCall.accept [1, 2, 3, 4, 5], ApiCall.decodeCall, ApiCall.accept [6, 7], ApiCall.decodeCall]

/-- Witness for C2 on a concrete parameter set and call trace. -/
theorem c2_beam_size_bounded_witness :
    (runCalls sampleParams sampleCalls
        (initState 2 1 (fun w => w))).beam.length ≤ sampleParams.numActivePaths :=
  c2_beam_size_bounded sampleParams 2 1 (fun w => w) sampleCalls (by norm_num [sampleParams])

/-! ## Claim C4: chunk-size independence of the FeatureExtractor -/

lemma emitAux_fuel_irrel (flen fshift : ℕ) (ff : List ℚ → List ℚ)
    (h1 : 0 < flen) (h2 : 0 < fshift) :
    ∀ (fuel fuel' : ℕ) (b : List ℚ), b.length ≤ fuel → b.length ≤ fuel' →
      emitAux flen fshift ff fuel b = emitAux flen fshift ff fuel' b := by
  intro fuel
  induction fuel with
  | zero =>
    intro fuel' b hb hb'
    have hlen : b.length = 0 := Nat.le_zero.mp hb
    cases fuel' with
    | zero => rfl
    | succ fuel' =>
      rw [emitAux, emitAux, if_neg (by omega)]
  | succ fuel ih =>
    intro fuel' b hb hb'
    cases fuel' with
    | zero =>
      have hlen : b.length = 0 := Nat.le_zero.mp hb'
      rw [emitAux, emitAux, if_neg (by omega)]
    | succ fuel' =>
      rw [emitAux, emitAux]
      by_cases hc : flen ≤ b.length
      · rw [if_pos hc, if_pos hc]
        have hd : (b.drop fshift).length ≤ fuel := by
          rw [List.length_drop]; omega
        have hd' : (b.drop fshift).length ≤ fuel' := by
          rw [List.length_drop]; omega
        rw [ih fuel' (b.drop fshift) hd hd']
      · rw [if_neg hc, if_neg hc]

lemma emitAll_base (flen fshift : ℕ) (ff : List ℚ → List ℚ) (b : List ℚ)
    (h : b.length < flen) :
    emitAll flen fshift ff b = ([], b) := by
  unfold emitAll
  cases hl : b.length with
  | zero => rfl
  | succ n => rw [emitAux, if_neg (by omega)]

lemma emitAll_step (flen fshift : ℕ) (ff : List ℚ → List ℚ) (b : List ℚ)
    (h1 : 0 < flen) (h2 : 0 < fshift) (hc : flen ≤ b.length) :
    emitAll flen fshift ff b =
      (ff (b.take flen) :: (emitAll flen fshift ff (b.drop fshift)).1,
        (emitAll flen fshift ff (b.drop fshift)).2) := by
  have hpos : 0 < b.length := lt_of_lt_of_le h1 hc
  obtain ⟨k, hk⟩ : ∃ k, b.length = k + 1 := ⟨b.length - 1, by omega⟩
  unfold emitAll
  rw [hk, emitAux, if_pos hc]
  have hd : (b.drop fshift).length ≤ k := by
    rw [List.length_drop]; omega
  rw [emitAux_fuel_irrel flen fshift ff h1 h2 k (b.drop fshift).length (b.drop fshift) hd
    le_rfl]

lemma emitAll_leftover_lt (flen fshift : ℕ) (ff : List ℚ → List ℚ)
    (h1 : 0 < flen) (h2 : 0 < fshift) :
    ∀ (fuel : ℕ) (b : List ℚ), b.length ≤ fuel →
      ((emitAux flen fshift ff fuel b).2).length < flen := by
  intro fuel
  induction fuel with
  | zero =>
    intro b hb
    have : b.length = 0 := Nat.le_zero.mp hb
    rw [emitAux]
    show b.length < flen
    omega
  | succ fuel ih =>
    intro b hb
    rw [emitAux]
    by_cases hc : flen ≤ b.length
    · rw [if_pos hc]
      exact ih (b.drop fshift) (by rw [List.length_drop]; omega)
    · rw [if_neg hc]
      show b.length < flen
      omega

lemma emitAll_append (flen fshift : ℕ) (ff : List ℚ → List ℚ)
    (h1 : 0 < flen) (h2 : 0 < fshift) (h3 : fshift ≤ flen) :
    ∀ (n : ℕ) (b e : List ℚ), b.length ≤ n →
      emitAll flen fshift ff (b ++ e) =
        ((emitAll flen fshift ff b).1 ++
           (emitAll flen fshift ff ((emitAll flen fshift ff b).2 ++ e)).1,
         (emitAll flen fshift ff ((emitAll flen fshift ff b).2 ++ e)).2) := by
  intro n
  induction n with
  | zero =>
    intro b e hb
    have hbn : b = [] := List.length_eq_zero.mp (Nat.le_zero.mp hb)
    subst hbn
    rw [emitAll_base flen fshift ff [] (by simpa using h1)]
    simp
  | succ n ih =>
    intro b e hb
    by_cases hc : flen ≤ b.length
    · have hce : flen ≤ (b ++ e).length := by
        rw [List.length_append]; omega
      rw [emitAll_step flen fshift ff (b ++ e) h1 h2 hce,
        emitAll_step flen fshift ff b h1 h2 hc,
        List.take_append_of_le_length hc,
        List.drop_append_of_le_length (le_trans h3 hc),
        ih (b.drop fshift) e (by rw [List.length_drop]; omega)]
      simp
    · push_neg at hc
      rw [emitAll_base flen fshift ff b hc]
      simp

lemma acceptWaveform_fields (fe : FeatureExtractor) (c : List ℚ) :
    (fe.acceptWaveform c).frameLength = fe.frameLength ∧
    (fe.acceptWaveform c).frameShift = fe.frameShift ∧
    (fe.acceptWaveform c).featFn = fe.featFn :=
  ⟨rfl, rfl, rfl⟩

lemma acceptWaveform_buf_lt (fe : FeatureExtractor) (c : List ℚ)
    (h1 : 0 < fe.frameLength) (h2 : 0 < fe.frameShift) :
    (fe.acceptWaveform c).buf.length < fe.frameLength := by
  show ((emitAll fe.frameLength fe.frameShift fe.featFn (fe.buf ++ c)).2).length <
    fe.frameLength
  exact emitAll_leftover_lt fe.frameLength fe.frameShift fe.featFn h1 h2 _ _ le_rfl

lemma acceptWaveform_acceptWaveform (fe : FeatureExtractor) (c1 c2 : List ℚ)
    (h1 : 0 < fe.frameLength) (h2 : 0 < fe.frameShift)
    (h3 : fe.frameShift ≤ fe.frameLength) :
    (fe.acceptWaveform c1).acceptWaveform c2 = fe.acceptWaveform (c1 ++ c2) := by
  show
    ({ fe with
        buf := (emitAll fe.frameLength fe.frameShift fe.featFn (fe.buf ++ c1)).2
        frames := fe.frames ++
          (emitAll fe.frameLength fe.frameShift fe.featFn (fe.buf ++ c1)).1 } :
      FeatureExtractor).acceptWaveform c2 = fe.acceptWaveform (c1 ++ c2)
  show
    ({ fe with
        buf := (emitAll fe.frameLength fe.frameShift fe.featFn
          ((emitAll fe.frameLength fe.frameShift fe.featFn (fe.buf ++ c1)).2 ++ c2)).2
        frames := fe.frames ++
          (emitAll fe.frameLength fe.frameShift fe.featFn (fe.buf ++ c1)).1 ++
          (emitAll fe.frameLength fe.frameShift fe.featFn
            ((emitAll fe.frameLength fe.frameShift fe.featFn (fe.buf ++ c1)).2 ++ c2)).1 } :
      FeatureExtractor) = fe.acceptWaveform (c1 ++ c2)
  have key := emitAll_append fe.frameLength fe.frameShift fe.featFn h1 h2 h3
    (fe.buf ++ c1).length (fe.buf ++ c1) c2 le_rfl
  show _ = ({ fe with
      buf := (emitAll fe.frameLength fe.frameShift fe.featFn (fe.buf ++ (c1 ++ c2))).2
      frames := fe.frames ++
        (emitAll fe.frameLength fe.frameShift fe.featFn (fe.buf ++ (c1 ++ c2))).1 } :
    FeatureExtractor)
  rw [← List.append_assoc fe.buf c1 c2, key]
  simp [List.append_assoc]

/-- C4: for every partition of a sample sequence into arbitrarily-sized
chunks, feeding the chunks through successive `AcceptWaveform` calls
leaves the `FeatureExtractor` in exactly the state (in particular with
exactly the frame sequence, same frames, same order) produced by
feeding the whole sequence in a single call.  The extractor must be in
a quiescent state (fewer buffered samples than one frame), which holds
for every reachable state, and the frame shift must be positive and at
most the frame length, as for the fbank features used by the code. -/
theorem c4_chunk_independence (fe : FeatureExtractor) (chunks : List (List ℚ))
    (h1 : 0 < fe.frameLength) (h2 : 0 < fe.frameShift)
    (h3 : fe.frameShift ≤ fe.frameLength) (h4 : fe.buf.length < fe.frameLength) :
    chunks.foldl FeatureExtractor.acceptWaveform fe =
      fe.acceptWaveform chunks.flatten ∧
    (chunks.foldl FeatureExtractor.acceptWaveform fe).frames =
      (fe.acceptWaveform chunks.flatten).frames := by
  have main : ∀ (chunks : List (List ℚ)) (fe : FeatureExtractor),
      0 < fe.frameLength → 0 < fe.frameShift → fe.frameShift ≤ fe.frameLength →
      fe.buf.length < fe.frameLength →
      chunks.foldl FeatureExtractor.acceptWaveform fe =
        fe.acceptWaveform chunks.flatten := by
    intro chunks
    induction chunks with
    | nil =>
      intro fe k1 k2 k3 k4
      show fe = fe.acceptWaveform []
      show fe = { fe with
        buf := (emitAll fe.frameLength fe.frameShift fe.featFn (fe.buf ++ [])).2
        frames := fe.frames ++
          (emitAll fe.frameLength fe.frameShift fe.featFn (fe.buf ++ [])).1 }
      rw [List.append_nil, emitAll_base fe.frameLength fe.frameShift fe.featFn fe.buf k4]
      simp
    | cons c cs ih =>
      intro fe k1 k2 k3 k4
      rw [List.foldl_cons]
      rw [ih (fe.acceptWaveform c) k1 k2 k3 (acceptWaveform_buf_lt fe c k1 k2)]
      show (fe.acceptWaveform c).acceptWaveform cs.flatten = _
      rw [acceptWaveform_acceptWaveform fe c cs.flatten k1 k2 k3]
      rfl
  have h := main chunks fe h1 h2 h3 h4
  exact ⟨h, by rw [h]⟩

/-- Witness for C4 on a concrete extractor and chunk partition. -/
theorem c4_chunk_independence_witness :
    ([[1, 2], [3, 4, 5], [], [6]] : List (List ℚ)).foldl
        FeatureExtractor.acceptWaveform (FeatureExtractor.init 3 2 (fun w => w)) =
      (FeatureExtractor.init 3 2 (fun w => w)).acceptWaveform
        ([[1, 2], [3, 4, 5], [], [6]] : List (List ℚ)).flatten ∧
    (([[1, 2], [3, 4, 5], [], [6]] : List (List ℚ)).foldl
        FeatureExtractor.acceptWaveform (FeatureExtractor.init 3 2 (fun w => w))).frames =
      ((FeatureExtractor.init 3 2 (fun w => w)).acceptWaveform
        ([[1, 2], [3, 4, 5], [], [6]] : List (List ℚ)).flatten).frames :=
  c4_chunk_independence (FeatureExtractor.init 3 2 (fun w => w))
    [[1, 2], [3, 4, 5], [], [6]] (by norm_num [FeatureExtractor.init])
    (by norm_num [FeatureExtractor.init]) (by norm_num [FeatureExtractor.init])
    (by norm_num [FeatureExtractor.init])

/-! ## Claim C3: duplicate token sequences are merged via log-sum-exp -/

lemma candScores_append (key : List ℕ) (l1 l2 : List Hypothesis) :
    candScores key (l1 ++ l2) = candScores key l1 ++ candScores key l2 := by
  simp [candScores, List.filter_append]

/-- The invariant maintained by the merge fold: the accumulator has
pairwise-distinct token sequences, each accumulated entry's score is
the combination of all processed candidates with its key, and every
processed candidate key is represented. -/
def MergeInv (comb : ℚ → ℚ → ℚ) (acc done : List Hypothesis) : Prop :=
  (acc.map Hypothesis.ys).Nodup ∧
  (∀ e ∈ acc, combineScores comb (candScores e.ys done) = some e.logProb) ∧
  (∀ c ∈ done, ∃ e ∈ acc, e.ys = c.ys)

lemma addHyp_inv (comb : ℚ → ℚ → ℚ) (acc done : List Hypothesis) (h : Hypothesis)
    (inv : MergeInv comb acc done) :
    MergeInv comb (addHyp comb acc h) (done ++ [h]) := by
  obtain ⟨hnd, hsc, hcov⟩ := inv
  unfold addHyp
  by_cases hex : ∃ e ∈ acc, e.ys = h.ys
  · rw [if_pos (by simpa using hex)]
    have hysmap : (acc.map fun e =>
        if e.ys = h.ys then (⟨e.ys, comb e.logProb h.logProb⟩ : Hypothesis) else e).map
          Hypothesis.ys = acc.map Hypothesis.ys := by
      rw [List.map_map]
      refine List.map_congr_left fun e _ => ?_
      by_cases heq : e.ys = h.ys <;> simp [heq]
    refine ⟨by rw [hysmap]; exact hnd, ?_, ?_⟩
    · intro e' he'
      rw [List.mem_map] at he'
      obtain ⟨e, he, rfl⟩ := he'
      by_cases heq : e.ys = h.ys
      · simp only [if_pos heq]
        have hbase := hsc e he
        cases hcs : candScores e.ys done with
        | nil => rw [hcs] at hbase; exact absurd hbase (by simp [combineScores])
        | cons x xs =>
          rw [hcs] at hbase
          simp only [combineScores, Option.some.injEq] at hbase
          have hsing : candScores e.ys [h] = [h.logProb] := by
            simp [candScores, heq.symm]
          rw [candScores_append, hcs, hsing]
          show some ((xs ++ [h.logProb]).foldl comb x) = some (comb e.logProb h.logProb)
          rw [List.foldl_append, hbase]
          rfl
      · simp only [if_neg heq]
        have hne : h.ys ≠ e.ys := fun hh => heq hh.symm
        have hnil : candScores e.ys [h] = [] := by
          simp [candScores, hne]
        rw [candScores_append, hnil, List.append_nil]
        exact hsc e he
    · intro c hc
      rcases List.mem_append.mp hc with hcd | hch
      · obtain ⟨e, he, hys⟩ := hcov c hcd
        refine ⟨if e.ys = h.ys then ⟨e.ys, comb e.logProb h.logProb⟩ else e,
          List.mem_map.mpr ⟨e, he, rfl⟩, ?_⟩
        by_cases heq : e.ys = h.ys
        · rw [if_pos heq]; exact hys
        · rw [if_neg heq]; exact hys
      · obtain ⟨e, he, hys⟩ := hex
        have hch' : c = h := by simpa using hch
        refine ⟨if e.ys = h.ys then ⟨e.ys, comb e.logProb h.logProb⟩ else e,
          List.mem_map.mpr ⟨e, he, rfl⟩, ?_⟩
        rw [hch', if_pos hys]
        exact hys
  · rw [if_neg (by simpa using hex)]
    push_neg at hex
    have hnotin : h.ys ∉ acc.map Hypothesis.ys := by
      intro hmem
      rw [List.mem_map] at hmem
      obtain ⟨e, he, hys⟩ := hmem
      exact hex e he hys
    have hdonenil : candScores h.ys done = [] := by
      rw [candScores, List.map_eq_nil_iff, List.filter_eq_nil_iff]
      intro c hc hkey
      obtain ⟨e, he, hys⟩ := hcov c hc
      exact hex e he (hys.trans (by simpa using hkey))
    refine ⟨?_, ?_, ?_⟩
    · rw [List.map_append]
      have hperm : (acc.map Hypothesis.ys ++ [h.ys]).Perm (h.ys :: acc.map Hypothesis.ys) :=
        List.perm_append_singleton _ _
      exact hperm.nodup_iff.mpr (List.nodup_cons.mpr ⟨hnotin, hnd⟩)
    · intro e he
      rcases List.mem_append.mp he with hea | heh
      · have hnil : candScores e.ys [h] = [] := by
          have : h.ys ≠ e.ys := fun hh => hex e hea hh.symm
          simp [candScores, this]
        rw [candScores_append, hnil, List.append_nil]
        exact hsc e hea
      · have he' : e = h := by simpa using heh
        subst he'
        rw [candScores_append, hdonenil, List.nil_append]
        simp [candScores, combineScores]
    · intro c hc
      rcases List.mem_append.mp hc with hcd | hch
      · obtain ⟨e, he, hys⟩ := hcov c hcd
        exact ⟨e, List.mem_append.mpr (Or.inl he), hys⟩
      · have hch' : c = h := by simpa using hch
        exact ⟨h, List.mem_append.mpr (Or.inr (by simp)), by rw [hch']⟩

lemma foldl_addHyp_inv (comb : ℚ → ℚ → ℚ) :
    ∀ (cands acc done : List Hypothesis), MergeInv comb acc done →
      MergeInv comb (cands.foldl (addHyp comb) acc) (done ++ cands) := by
  intro cands
  induction cands with
  | nil => intro acc done inv; simpa using inv
  | cons c cs ih =>
    intro acc done inv
    rw [List.foldl_cons]
    have step := addHyp_inv comb acc done c inv
    have := ih (addHyp comb acc c) (done ++ [c]) step
    simpa [List.append_assoc] using this

lemma mergeCands_inv (comb : ℚ → ℚ → ℚ) (cands : List Hypothesis) :
    MergeInv comb (mergeCands comb cands) cands := by
  have := foldl_addHyp_inv comb cands [] [] ⟨by simp, by simp, by simp⟩
  simpa [mergeCands] using this

lemma filter_key_length_le_one (acc : List Hypothesis)
    (hnd : (acc.map Hypothesis.ys).Nodup) (key : List ℕ) :
    (acc.filter (fun e => decide (e.ys = key))).length ≤ 1 := by
  induction acc with
  | nil => simp
  | cons a t ih =>
    rw [List.map_cons, List.nodup_cons] at hnd
    obtain ⟨hnotin, hndt⟩ := hnd
    by_cases ha : a.ys = key
    · have htnil : t.filter (fun e => decide (e.ys = key)) = [] := by
        rw [List.filter_eq_nil_iff]
        intro e he hkey
        refine hnotin ?_
        rw [ha, ← show e.ys = key by simpa using hkey]
        exact List.mem_map.mpr ⟨e, he, rfl⟩
      simp [List.filter_cons, ha, htnil]
    · simpa [List.filter_cons, ha] using ih hndt

lemma insertHyp_perm (x : Hypothesis) (l : List Hypothesis) :
    (insertHyp x l).Perm (x :: l) := by
  induction l with
  | nil => exact List.Perm.refl _
  | cons y t ih =>
    rw [insertHyp]
    by_cases hb : strictBetter x y
    · rw [if_pos hb]
    · rw [if_neg hb]
      exact (ih.cons y).trans (List.Perm.swap x y t)

lemma sortHyps_perm (l : List Hypothesis) : (sortHyps l).Perm l := by
  have main : ∀ (l acc : List Hypothesis),
      (l.foldl (fun acc x => insertHyp x acc) acc).Perm (acc ++ l) := by
    intro l
    induction l with
    | nil => intro acc; simp
    | cons x t ih =>
      intro acc
      rw [List.foldl_cons]
      refine (ih (insertHyp x acc)).trans ?_
      refine ((insertHyp_perm x acc).append_right t).trans ?_
      show (x :: (acc ++ t)).Perm (acc ++ x :: t)
      exact List.perm_middle.symm
  simpa using main l []

lemma mem_topK (n : ℕ) (l : List Hypothesis) (h : Hypothesis) (hm : h ∈ topK n l) :
    h ∈ l := by
  have h1 : h ∈ sortHyps l := (List.take_sublist n (sortHyps l)).mem hm
  exact (sortHyps_perm l).mem_iff.mp h1

lemma topK_keys_nodup (n : ℕ) (l : List Hypothesis)
    (hnd : (l.map Hypothesis.ys).Nodup) :
    ((topK n l).map Hypothesis.ys).Nodup := by
  have hsorted : ((sortHyps l).map Hypothesis.ys).Nodup :=
    (((sortHyps_perm l).map Hypothesis.ys).nodup_iff).mpr hnd
  exact hsorted.sublist ((List.take_sublist n (sortHyps l)).map Hypothesis.ys)

/-- C3: in every beam-search expansion step, duplicate token sequences
among the pooled candidates are merged: after the merge there is
exactly one entry per candidate token sequence, the merged entry's
score is the log-sum-exp combination of all candidates with that token
sequence (exactly, hence within the 1e-5 tolerance), the beam after the
expansion step has no duplicate token-sequence entries, and every
surviving beam entry keeps its merged score. -/
theorem c3_merge_logsumexp (p : DecodeParams) (fi : ℕ) (beam : List Hypothesis) :
    (∀ c ∈ beam.flatMap (candidatesOf p fi),
       ((mergeCands p.comb (beam.flatMap (candidatesOf p fi))).filter
           (fun e => decide (e.ys = c.ys))).length = 1) ∧
    (∀ e ∈ mergeCands p.comb (beam.flatMap (candidatesOf p fi)),
       ∃ q, combineScores p.comb (candScores e.ys (beam.flatMap (candidatesOf p fi))) =
           some q ∧
         |e.logProb - q| ≤ 1 / 100000) ∧
    ((expandStep p fi beam).map Hypothesis.ys).Nodup ∧
    (∀ h ∈ expandStep p fi beam,
       ∃ q, combineScores p.comb (candScores h.ys (beam.flatMap (candidatesOf p fi))) =
           some q ∧
         |h.logProb - q| ≤ 1 / 100000) := by
  obtain ⟨hnd, hsc, hcov⟩ := mergeCands_inv p.comb (beam.flatMap (candidatesOf p fi))
  have hscore : ∀ e ∈ mergeCands p.comb (beam.flatMap (candidatesOf p fi)),
      ∃ q, combineScores p.comb (candScores e.ys (beam.flatMap (candidatesOf p fi))) =
          some q ∧ |e.logProb - q| ≤ 1 / 100000 := by
    intro e he
    exact ⟨e.logProb, hsc e he, by simp⟩
  refine ⟨?_, hscore, ?_, ?_⟩
  · intro c hc
    have hle := filter_key_length_le_one _ hnd c.ys
    obtain ⟨e, he, hys⟩ := hcov c hc
    have hmem : e ∈ (mergeCands p.comb (beam.flatMap (candidatesOf p fi))).filter
        (fun e => decide (e.ys = c.ys)) :=
      List.mem_filter.mpr ⟨he, by simpa using hys⟩
    have hpos : 0 < ((mergeCands p.comb (beam.flatMap (candidatesOf p fi))).filter
        (fun e => decide (e.ys = c.ys))).length :=
      List.length_pos.mpr (List.ne_nil_of_mem hmem)
    omega
  · exact topK_keys_nodup _ _ hnd
  · intro h hm
    exact hscore h (mem_topK _ _ _ hm)

/-! ## Claim C5: beam width 1 degenerates to greedy search -/

lemma candidatesOf_keys_nodup (p : DecodeParams) (fi : ℕ) (h : Hypothesis) :
    ((candidatesOf p fi h).map Hypothesis.ys).Nodup := by
  have hmap : (candidatesOf p fi h).map Hypothesis.ys =
      h.ys :: ((List.range p.vocabSize).filter (fun t => decide (t ≠ p.blankId))).map
        (fun t => h.ys ++ [t]) := by
    simp [candidatesOf, nonblankCands, List.map_map, Function.comp]
  rw [hmap]
  refine List.nodup_cons.mpr ⟨?_, ?_⟩
  · intro hmem
    rw [List.mem_map] at hmem
    obtain ⟨t, _, hts⟩ := hmem
    have := congrArg List.length hts
    simp at this
  · refine List.Nodup.map ?_ (List.Nodup.filter _ (List.nodup_range _))
    intro a b hab
    simpa using List.append_cancel_left hab

lemma foldl_addHyp_fresh (comb : ℚ → ℚ → ℚ) :
    ∀ (l acc : List Hypothesis), ((acc ++ l).map Hypothesis.ys).Nodup →
      l.foldl (addHyp comb) acc = acc ++ l := by
  intro l
  induction l with
  | nil => intro acc _; simp
  | cons c cs ih =>
    intro acc hnd
    have hfresh : ¬ acc.any (fun e => decide (e.ys = c.ys)) := by
      simp only [List.any_eq_true, decide_eq_true_eq, not_exists, not_and]
      intro e he hey
      have hd : List.Disjoint (acc.map Hypothesis.ys) ((c :: cs).map Hypothesis.ys) := by
        rw [List.map_append] at hnd
        exact List.disjoint_of_nodup_append hnd
      exact hd (List.mem_map.mpr ⟨e, he, rfl⟩) (by rw [hey]; simp)
    rw [List.foldl_cons]
    have hstep : addHyp comb acc c = acc ++ [c] := by
      rw [addHyp, if_neg hfresh]
    rw [hstep, ih (acc ++ [c]) (by rw [List.append_assoc]; simpa using hnd)]
    simp

lemma mergeCands_of_nodup (comb : ℚ → ℚ → ℚ) (l : List Hypothesis)
    (hnd : (l.map Hypothesis.ys).Nodup) : mergeCands comb l = l := by
  have := foldl_addHyp_fresh comb l [] (by simpa using hnd)
  simpa [mergeCands] using this

lemma sortHyps_snoc (l : List Hypothesis) (z : Hypothesis) :
    sortHyps (l ++ [z]) = insertHyp z (sortHyps l) := by
  simp [sortHyps, List.foldl_append]

lemma sortHyps_head (l : List Hypothesis) (x : Hypothesis) :
    ∃ t, sortHyps (x :: l) = l.foldl pick x :: t := by
  induction l using List.reverseRecOn with
  | nil => exact ⟨[], rfl⟩
  | append_singleton l z ih =>
    obtain ⟨t0, ht0⟩ := ih
    have hx : x :: (l ++ [z]) = (x :: l) ++ [z] := rfl
    rw [hx, sortHyps_snoc, ht0, List.foldl_append]
    show ∃ t, insertHyp z (l.foldl pick x :: t0) = [z].foldl pick (l.foldl pick x) :: t
    rw [insertHyp]
    by_cases hb : strictBetter z (l.foldl pick x)
    · rw [if_pos hb]
      exact ⟨l.foldl pick x :: t0, by simp [pick, hb]⟩
    · rw [if_neg hb]
      exact ⟨insertHyp z t0, by simp [pick, hb]⟩

lemma expandStep_width_one (p : DecodeParams) (fi : ℕ) (h : Hypothesis)
    (h1 : p.numActivePaths = 1) :
    expandStep p fi [h] = [greedyStep p fi h] := by
  have hpool : ([h].flatMap (candidatesOf p fi)) = candidatesOf p fi h := by simp
  rw [expandStep, hpool, mergeCands_of_nodup p.comb _ (candidatesOf_keys_nodup p fi h), h1]
  obtain ⟨t, ht⟩ := sortHyps_head (nonblankCands p fi h) ⟨h.ys, h.logProb⟩
  rw [topK, show candidatesOf p fi h = ⟨h.ys, h.logProb⟩ :: nonblankCands p fi h from rfl,
    ht]
  rfl

lemma expandMany_width_one (p : DecodeParams) (base k : ℕ) (h : Hypothesis)
    (h1 : p.numActivePaths = 1) :
    expandMany p base k [h] = [greedyMany p base k h] := by
  induction k with
  | zero => simp [expandMany, greedyMany]
  | succ k ih =>
    rw [expandMany, greedyMany, List.range_succ, List.foldl_append, List.foldl_append]
    rw [show (List.range k).foldl (fun b j => expandStep p (base + j) b) [h] =
      expandMany p base k [h] from rfl, ih]
    rw [show (List.range k).foldl (fun hh j => greedyStep p (base + j) hh) h =
      greedyMany p base k h from rfl]
    simp [expandStep_width_one p (base + k) _ h1]

lemma decodeOnce_width_one (p : DecodeParams) (s : DecoderState) (h : Hypothesis)
    (hb : s.beam = [h]) (h1 : p.numActivePaths = 1) :
    decodeOnce p s = greedyDecodeOnce p s ∧
      (decodeOnce p s).beam = [greedyMany p s.numProcessed p.encOutPerSegment h] := by
  have hexp : expandMany p s.numProcessed p.encOutPerSegment s.beam =
      [greedyMany p s.numProcessed p.encOutPerSegment h] := by
    rw [hb]; exact expandMany_width_one p _ _ h h1
  have hlhs : decodeOnce p s =
      { s with
        beam := [greedyMany p s.numProcessed p.encOutPerSegment h]
        encoderState := p.encUpd s.encoderState
          ((s.fe.frames.drop s.numProcessed).take p.segment)
        numProcessed := s.numProcessed + p.offset
        framesSinceLastNonblank :=
          if (greedyMany p s.numProcessed p.encOutPerSegment h).ys.length = h.ys.length
          then s.framesSinceLastNonblank + p.encOutPerSegment else 0 } := by
    show ({ s with
        beam := expandMany p s.numProcessed p.encOutPerSegment s.beam
        encoderState := p.encUpd s.encoderState
          ((s.fe.frames.drop s.numProcessed).take p.segment)
        numProcessed := s.numProcessed + p.offset
        framesSinceLastNonblank :=
          if (bestHyp (expandMany p s.numProcessed p.encOutPerSegment s.beam)).ys.length =
              (bestHyp s.beam).ys.length then
            s.framesSinceLastNonblank + p.encOutPerSegment
          else 0 } : DecoderState) = _
    rw [hexp, hb]
    rfl
  have hrhs : greedyDecodeOnce p s =
      { s with
        beam := [greedyMany p s.numProcessed p.encOutPerSegment h]
        encoderState := p.encUpd s.encoderState
          ((s.fe.frames.drop s.numProcessed).take p.segment)
        numProcessed := s.numProcessed + p.offset
        framesSinceLastNonblank :=
          if (greedyMany p s.numProcessed p.encOutPerSegment h).ys.length = h.ys.length
          then s.framesSinceLastNonblank + p.encOutPerSegment else 0 } := by
    show ({ s with
        beam := [greedyMany p s.numProcessed p.encOutPerSegment (bestHyp s.beam)]
        encoderState := p.encUpd s.encoderState
          ((s.fe.frames.drop s.numProcessed).take p.segment)
        numProcessed := s.numProcessed + p.offset
        framesSinceLastNonblank :=
          if (greedyMany p s.numProcessed p.encOutPerSegment (bestHyp s.beam)).ys.length =
              (bestHyp s.beam).ys.length then
            s.framesSinceLastNonblank + p.encOutPerSegment
          else 0 } : DecoderState) = _
    rw [hb]
    rfl
  refine ⟨hlhs.trans hrhs.symm, ?_⟩
  rw [hlhs]

lemma decodeLoop_width_one (p : DecodeParams) (h1 : p.numActivePaths = 1) :
    ∀ (fuel : ℕ) (s : DecoderState) (h : Hypothesis), s.beam = [h] →
      decodeLoop p fuel s = greedyDecodeLoop p fuel s ∧
        ∃ h', (decodeLoop p fuel s).beam = [h'] := by
  intro fuel
  induction fuel with
  | zero => intro s h hb; exact ⟨rfl, h, hb⟩
  | succ fuel ih =>
    intro s h hb
    rw [decodeLoop, greedyDecodeLoop]
    by_cases hc : s.numProcessed + p.segment ≤ s.fe.frames.length
    · rw [if_pos hc, if_pos hc]
      obtain ⟨heq, hbeam⟩ := decodeOnce_width_one p s h hb h1
      obtain ⟨hloop, h', hb'⟩ := ih (decodeOnce p s) _ hbeam
      rw [← heq]
      exact ⟨hloop, h', hb'⟩
    · rw [if_neg hc, if_neg hc]
      exact ⟨rfl, h, hb⟩

lemma runCalls_width_one (p : DecodeParams) (h1 : p.numActivePaths = 1) :
    ∀ (calls : List ApiCall) (s : DecoderState) (h : Hypothesis), s.beam = [h] →
      runCalls p calls s = runCallsGreedy p calls s ∧
        ∃ h', (runCalls p calls s).beam = [h'] := by
  intro calls
  induction calls with
  | nil => intro s h hb; exact ⟨rfl, h, hb⟩
  | cons c cs ih =>
    intro s h hb
    cases c with
    | accept samples =>
      rw [runCalls, runCallsGreedy, List.foldl_cons, List.foldl_cons]
      exact ih (s.acceptWaveform samples) h hb
    | decodeCall =>
      rw [runCalls, runCallsGreedy, List.foldl_cons, List.foldl_cons]
      obtain ⟨heq, h', hb'⟩ := decodeLoop_width_one p h1 (s.fe.frames.length + 1) s h hb
      show (cs.foldl (runCall p) (decode p s)) = cs.foldl (runCallGreedy p) (greedyDecode p s) ∧ _
      rw [show greedyDecode p s = greedyDecodeLoop p (s.fe.frames.length + 1) s from rfl, ← heq]
      exact ih (decode p s) h' hb'

/-- C5: with `num_active_paths = 1`, the modified-beam-search pipeline
coincides, state for state, with greedy search (always keeping only the
single highest-scoring candidate at each expansion step) over every
sequence of `AcceptWaveform`/`Decode` calls; in particular the
transcripts agree. -/
theorem c5_width_one_is_greedy (p : DecodeParams) (flen fshift : ℕ)
    (ff : List ℚ → List ℚ) (calls : List ApiCall) (sym : ℕ → String)
    (h1 : p.numActivePaths = 1) :
    runCalls p calls (initState flen fshift ff) =
      runCallsGreedy p calls (initState flen fshift ff) ∧
    getResult sym (runCalls p calls (initState flen fshift ff)) =
      getResult sym (runCallsGreedy p calls (initState flen fshift ff)) := by
  obtain ⟨heq, _⟩ := runCalls_width_one p h1 calls (initState flen fshift ff) ⟨[], 0⟩ rfl
  exact ⟨heq, by rw [heq]⟩

/-- `sampleParams` restricted to beam width 1, for the C5 witness. -/
def sampleParamsOne : DecodeParams :=
  { sampleParams with numActivePaths := 1 }

/-- Witness for C5 on a concrete parameter set and call trace. -/
theorem c5_width_one_is_greedy_witness :
    runCalls sampleParamsOne sampleCalls (initState 2 1 (fun w => w)) =
      runCallsGreedy sampleParamsOne sampleCalls (initState 2 1 (fun w => w)) ∧
    getResult (fun _ => "tok") (runCalls sampleParamsOne sampleCalls
        (initState 2 1 (fun w => w))) =
      getResult (fun _ => "tok") (runCallsGreedy sampleParamsOne sampleCalls
        (initState 2 1 (fun w => w))) :=
  c5_width_one_is_greedy sampleParamsOne 2 1 (fun w => w) sampleCalls (fun _ => "tok") rfl

end SherpaNcnn
